import Mathlib

/-!
Verification of the numeric dataset utilities in
`src/demos/code-viewer-sample.py`: the min-max `normalise` function and the
`summarise` function producing a `Summary` record.  Real numbers of the
source are modelled as rationals (`ℚ`), so all arithmetic is exact;
Python's `None` entries are modelled with `Option`.
-/

namespace CodeViewerSample

/-- Python's built-in `min(values)` on a non-empty list
(`0` is returned on `[]`, a case the source never reaches). -/
def listMin : List ℚ → ℚ
  | [] => 0
  | x :: xs => xs.foldl min x

/-- Python's built-in `max(values)` on a non-empty list
(`0` is returned on `[]`, a case the source never reaches). -/
def listMax : List ℚ → ℚ
  | [] => 0
  | x :: xs => xs.foldl max x

/-- `normalise` from `code-viewer-sample.py`: scale numbers into the 0-1
range while preserving proportions. -/
def normalise (values : List ℚ) : List ℚ :=
  if values = [] then []
  else
    let lower := listMin values
    let upper := listMax values
    if lower = upper then values.map (fun _ => 1)
    else
      let spread := upper - lower
      values.map (fun value => (value - lower) / spread)

/-- The `Summary` dataclass: a count and an average. -/
structure Summary where
  count : ℕ
  average : ℚ
  deriving DecidableEq, Repr

/-- `summarise` from `code-viewer-sample.py`: drop the `None` entries,
then report how many values remain and their arithmetic mean
(`statistics.mean` is the sum divided by the length), with `0.0` as the
average of an empty cleaned list. -/
def summarise (values : List (Option ℚ)) : Summary :=
  let cleaned := values.filterMap id
  { count := cleaned.length
    average := if cleaned = [] then 0 else cleaned.sum / cleaned.length }

/-- A division-checked variant of `normalise`: it returns `none` if the
division in the final branch would divide by zero, and otherwise the same
result as `normalise`.  Used to state that the division is never reached
with a zero divisor. -/
def normaliseChecked (values : List ℚ) : Option (List ℚ) :=
  if values = [] then some []
  else
    let lower := listMin values
    let upper := listMax values
    if lower = upper then some (values.map (fun _ => 1))
    else
      let spread := upper - lower
      if spread = 0 then none
      else some (values.map (fun value => (value - lower) / spread))

/-! ### Helper lemmas about `listMin` and `listMax` -/

lemma foldl_min_le_init (xs : List ℚ) : ∀ x : ℚ, xs.foldl min x ≤ x := by
  induction xs with
  | nil => intro x; simp
  | cons a xs ih =>
      intro x
      calc (a :: xs).foldl min x = xs.foldl min (min x a) := rfl
        _ ≤ min x a := ih (min x a)
        _ ≤ x := min_le_left x a

lemma foldl_min_le_mem (xs : List ℚ) :
    ∀ (x y : ℚ), y ∈ xs → xs.foldl min x ≤ y := by
  induction xs with
  | nil => intro x y hy; simp at hy
  | cons a xs ih =>
      intro x y hy
      rcases List.mem_cons.mp hy with h | h
      · subst h
        calc (y :: xs).foldl min x = xs.foldl min (min x y) := rfl
          _ ≤ min x y := foldl_min_le_init xs (min x y)
          _ ≤ y := min_le_right x y
      · exact ih (min x a) y h

lemma foldl_min_mem (xs : List ℚ) :
    ∀ x : ℚ, xs.foldl min x = x ∨ xs.foldl min x ∈ xs := by
  induction xs with
  | nil => intro x; left; rfl
  | cons a xs ih =>
      intro x
      rcases ih (min x a) with h | h
      · rcases min_cases x a with ⟨hm, _⟩ | ⟨hm, _⟩
        · left; simpa [hm] using h
        · right; rw [List.foldl_cons, h, hm]; exact List.mem_cons_self a xs
      · right; exact List.mem_cons_of_mem a h

lemma le_foldl_max_init (xs : List ℚ) : ∀ x : ℚ, x ≤ xs.foldl max x := by
  induction xs with
  | nil => intro x; simp
  | cons a xs ih =>
      intro x
      calc x ≤ max x a := le_max_left x a
        _ ≤ xs.foldl max (max x a) := ih (max x a)
        _ = (a :: xs).foldl max x := rfl

lemma mem_le_foldl_max (xs : List ℚ) :
    ∀ (x y : ℚ), y ∈ xs → y ≤ xs.foldl max x := by
  induction xs with
  | nil => intro x y hy; simp at hy
  | cons a xs ih =>
      intro x y hy
      rcases List.mem_cons.mp hy with h | h
      · subst h
        calc y ≤ max x y := le_max_right x y
          _ ≤ xs.foldl max (max x y) := le_foldl_max_init xs (max x y)
          _ = (y :: xs).foldl max x := rfl
      · exact ih (max x a) y h

lemma foldl_max_mem (xs : List ℚ) :
    ∀ x : ℚ, xs.foldl max x = x ∨ xs.foldl max x ∈ xs := by
  induction xs with
  | nil => intro x; left; rfl
  | cons a xs ih =>
      intro x
      rcases ih (max x a) with h | h
      · rcases max_cases x a with ⟨hm, _⟩ | ⟨hm, _⟩
        · left; simpa [hm] using h
        · right; rw [List.foldl_cons, h, hm]; exact List.mem_cons_self a xs
      · right; exact List.mem_cons_of_mem a h

lemma listMin_mem {l : List ℚ} (h : l ≠ []) : listMin l ∈ l := by
  cases l with
  | nil => exact absurd rfl h
  | cons x xs =>
      rcases foldl_min_mem xs x with hm | hm
      · rw [listMin, hm]; exact List.mem_cons_self x xs
      · exact List.mem_cons_of_mem x hm

lemma listMin_le {l : List ℚ} {y : ℚ} (h : y ∈ l) : listMin l ≤ y := by
  cases l with
  | nil => simp at h
  | cons x xs =>
      rcases List.mem_cons.mp h with hy | hy
      · subst hy; exact foldl_min_le_init xs y
      · exact foldl_min_le_mem xs x y hy

lemma listMax_mem {l : List ℚ} (h : l ≠ []) : listMax l ∈ l := by
  cases l with
  | nil => exact absurd rfl h
  | cons x xs =>
      rcases foldl_max_mem xs x with hm | hm
      · rw [listMax, hm]; exact List.mem_cons_self x xs
      · exact List.mem_cons_of_mem x hm

lemma le_listMax {l : List ℚ} {y : ℚ} (h : y ∈ l) : y ≤ listMax l := by
  cases l with
  | nil => simp at h
  | cons x xs =>
      rcases List.mem_cons.mp h with hy | hy
      · subst hy; exact le_foldl_max_init xs y
      · exact mem_le_foldl_max xs x y hy

lemma listMin_le_listMax {l : List ℚ} (h : l ≠ []) : listMin l ≤ listMax l :=
  le_listMax (listMin_mem h)

lemma listMin_eq_of {l : List ℚ} {m : ℚ} (hm : m ∈ l)
    (hle : ∀ y ∈ l, m ≤ y) : listMin l = m := by
  have hne : l ≠ [] := by rintro rfl; simp at hm
  exact le_antisymm (listMin_le hm) (hle _ (listMin_mem hne))

lemma listMax_eq_of {l : List ℚ} {m : ℚ} (hm : m ∈ l)
    (hle : ∀ y ∈ l, y ≤ m) : listMax l = m := by
  have hne : l ≠ [] := by rintro rfl; simp at hm
  exact le_antisymm (hle _ (listMax_mem hne)) (le_listMax hm)

/-! ### Unfolding lemmas for `normalise` -/

lemma normalise_of_eq {v : List ℚ} (hne : v ≠ []) (h : listMin v = listMax v) :
    normalise v = v.map (fun _ => 1) := by
  simp [normalise, hne, h]

lemma normalise_of_ne {v : List ℚ} (hne : v ≠ []) (h : listMin v ≠ listMax v) :
    normalise v =
      v.map (fun x => (x - listMin v) / (listMax v - listMin v)) := by
  simp [normalise, hne, h]

lemma length_filterMap_id (vs : List (Option ℚ)) :
    (vs.filterMap id).length = vs.countP (fun o => o.isSome) := by
  induction vs with
  | nil => rfl
  | cons a vs ih => cases a <;> simp [List.countP_cons, ih]

/-- C4: `normalise` applied to the empty sequence returns the empty
sequence. -/
theorem normalise_nil : normalise [] = [] := rfl

/-- C7: `normalise` is total: the checked variant, which signals the
division by `upper - lower` being reached with a zero divisor, always
succeeds and agrees with `normalise` on every input. -/
theorem normaliseChecked_eq_some (v : List ℚ) :
    normaliseChecked v = some (normalise v) := by
  by_cases hne : v = []
  · subst hne; rfl
  · by_cases h : listMin v = listMax v
    · simp [normaliseChecked, normalise, hne, h]
    · have hs : listMax v - listMin v ≠ 0 := sub_ne_zero_of_ne (Ne.symm h)
      simp [normaliseChecked, normalise, hne, h, hs]

/-- C10: the `count` field of `summarise values` is at most the length of
the input sequence. -/
theorem summarise_count_le_length (vs : List (Option ℚ)) :
    (summarise vs).count ≤ vs.length := by
  simpa [summarise] using List.length_filterMap_le id vs

/-- C2: `summarise` returns a `Summary` whose `count` is the number of
non-absent entries, and whose `average` is the sum of the retained entries
divided by `count` when `count > 0`, and exactly `0` when `count = 0`. -/
theorem summarise_spec (vs : List (Option ℚ)) :
    (summarise vs).count = vs.countP (fun o => o.isSome) ∧
    (0 < (summarise vs).count →
      (summarise vs).average =
        (vs.filterMap id).sum / ((summarise vs).count : ℚ)) ∧
    ((summarise vs).count = 0 → (summarise vs).average = 0) := by
  refine ⟨length_filterMap_id vs, ?_, ?_⟩
  · intro h
    have hne : vs.filterMap id ≠ [] := by
      intro hnil
      rw [summarise] at h
      simp [hnil] at h
    simp [summarise, hne]
  · intro h
    have hnil : vs.filterMap id = [] := by
      rw [summarise] at h
      exact List.length_eq_zero.mp h
    simp [summarise, hnil]

/-- C5: an entry equal to the number `0` is retained by `summarise`: it
raises `count` by one and enters the mean as a summand, since only the
absent marker (`none`) is filtered out. -/
theorem summarise_retains_zero (vs : List (Option ℚ)) :
    (summarise ((some 0) :: vs)).count = (summarise vs).count + 1 ∧
    (summarise ((some 0) :: vs)).average =
      ((0 : ℚ) + (vs.filterMap id).sum) / (((summarise vs).count : ℚ) + 1) := by
  have hcons : ((some (0 : ℚ)) :: vs).filterMap id = 0 :: vs.filterMap id := by
    simp
  constructor
  · simp [summarise, hcons]
  · simp [summarise, hcons]

/-- C1: on a non-empty input whose minimum differs from its maximum,
`normalise` keeps the length and order, maps the i-th value to
`(v_i - lower) / (upper - lower)`, lands every output in `[0, 1]`, sends
every index holding the minimum to `0` and every index holding the
maximum to `1`. -/
theorem normalise_spec (v : List ℚ) (hne : v ≠ [])
    (hlu : listMin v ≠ listMax v) :
    (normalise v).length = v.length ∧
    (∀ (i : ℕ) (hi : i < v.length) (hj : i < (normalise v).length),
      (normalise v)[i] = (v[i] - listMin v) / (listMax v - listMin v)) ∧
    (∀ x ∈ normalise v, 0 ≤ x ∧ x ≤ 1) ∧
    (∀ (i : ℕ) (hi : i < v.length) (hj : i < (normalise v).length),
      v[i] = listMin v → (normalise v)[i] = 0) ∧
    (∀ (i : ℕ) (hi : i < v.length) (hj : i < (normalise v).length),
      v[i] = listMax v → (normalise v)[i] = 1) := by
  have hlt : listMin v < listMax v :=
    lt_of_le_of_ne (listMin_le_listMax hne) hlu
  have hspos : (0 : ℚ) < listMax v - listMin v := sub_pos.mpr hlt
  have hmap := normalise_of_ne hne hlu
  have hget : ∀ (i : ℕ) (hi : i < v.length) (hj : i < (normalise v).length),
      (normalise v)[i] = (v[i] - listMin v) / (listMax v - listMin v) := by
    intro i hi hj
    rw [List.getElem_of_eq hmap hj, List.getElem_map]
  refine ⟨by rw [hmap, List.length_map], hget, ?_, ?_, ?_⟩
  · intro x hx
    rw [hmap] at hx
    obtain ⟨y, hy, rfl⟩ := List.mem_map.mp hx
    refine ⟨div_nonneg (sub_nonneg.mpr (listMin_le hy)) (le_of_lt hspos), ?_⟩
    exact (div_le_one hspos).mpr (sub_le_sub_right (le_listMax hy) _)
  · intro i hi hj hmin
    rw [hget i hi hj, hmin, sub_self, zero_div]
  · intro i hi hj hmax
    rw [hget i hi hj, hmax, div_self (ne_of_gt hspos)]

/-- C1 witness: the hypotheses of `normalise_spec` hold at `[1, 2, 3]`. -/
theorem normalise_spec_witness : (normalise [1, 2, 3]).length = 3 := by
  have h := (normalise_spec [1, 2, 3] (by decide) (by decide)).1
  simpa using h

/-- C2 witness: the positive-count hypothesis of `summarise_spec` holds at
`[some 1, none, some 3]`. -/
theorem summarise_spec_witness :
    (summarise [some 1, none, some 3]).average =
      (([some 1, none, some 3] : List (Option ℚ)).filterMap id).sum /
        ((summarise [some 1, none, some 3]).count : ℚ) :=
  (summarise_spec [some 1, none, some 3]).2.1 (by decide)

/-- C3: on a non-empty input whose values are all equal to a constant
`c`, `normalise` returns a sequence of the same length in which every
element is `1`. -/
theorem normalise_constant (v : List ℚ) (c : ℚ) (hne : v ≠ [])
    (hc : ∀ x ∈ v, x = c) :
    (normalise v).length = v.length ∧ ∀ x ∈ normalise v, x = 1 := by
  have hmm : listMin v = listMax v :=
    (hc _ (listMin_mem hne)).trans (hc _ (listMax_mem hne)).symm
  have heq := normalise_of_eq hne hmm
  refine ⟨by rw [heq, List.length_map], ?_⟩
  intro x hx
  rw [heq] at hx
  obtain ⟨y, _, rfl⟩ := List.mem_map.mp hx
  rfl

/-- C3 witness: the hypotheses of `normalise_constant` hold at `[5]`. -/
theorem normalise_constant_witness : (normalise [5]).length = 1 := by
  have h := (normalise_constant [5] 5 (by decide) (by decide)).1
  simpa using h

/-- C6: a non-empty input whose minimum is `0` and maximum is `1` (an
already-normalised, necessarily non-constant sequence) is returned
unchanged by `normalise`. -/
theorem normalise_fixes_normalised (v : List ℚ) (hne : v ≠ [])
    (h0 : listMin v = 0) (h1 : listMax v = 1) : normalise v = v := by
  have hlu : listMin v ≠ listMax v := by rw [h0, h1]; norm_num
  rw [normalise_of_ne hne hlu, h0, h1]
  simp

/-- C6 witness: the hypotheses of `normalise_fixes_normalised` hold at
`[0, 1]`. -/
theorem normalise_fixes_normalised_witness :
    normalise [0, 1] = [0, 1] :=
  normalise_fixes_normalised [0, 1] (by decide) (by decide) (by decide)

/-- C9: `normalise` is idempotent on every input (empty, constant or
not): applying it twice gives the same result as applying it once. -/
theorem normalise_idempotent (v : List ℚ) :
    normalise (normalise v) = normalise v := by
  by_cases hne : v = []
  · subst hne; rfl
  · by_cases h : listMin v = listMax v
    · have heq := normalise_of_eq hne h
      have hwne : v.map (fun _ => (1 : ℚ)) ≠ [] := by
        intro hnil
        exact hne (List.map_eq_nil_iff.mp hnil)
      have h1w : (1 : ℚ) ∈ v.map (fun _ => (1 : ℚ)) :=
        List.mem_map_of_mem _ (listMin_mem hne)
      have hone : ∀ x ∈ v.map (fun _ => (1 : ℚ)), x = 1 := by
        intro x hx
        obtain ⟨y, _, rfl⟩ := List.mem_map.mp hx
        rfl
      have hminw : listMin (v.map (fun _ => (1 : ℚ))) = 1 :=
        listMin_eq_of h1w (fun y hy => le_of_eq (hone y hy).symm)
      have hmaxw : listMax (v.map (fun _ => (1 : ℚ))) = 1 :=
        listMax_eq_of h1w (fun y hy => le_of_eq (hone y hy))
      rw [heq, normalise_of_eq hwne (hminw.trans hmaxw.symm), List.map_map]
      rfl
    · have hlt : listMin v < listMax v :=
        lt_of_le_of_ne (listMin_le_listMax hne) h
      have hspos : (0 : ℚ) < listMax v - listMin v := sub_pos.mpr hlt
      have heq := normalise_of_ne hne h
      have hwne :
          (v.map fun x => (x - listMin v) / (listMax v - listMin v)) ≠ [] := by
        intro hnil
        exact hne (List.map_eq_nil_iff.mp hnil)
      have hmono : ∀ a b : ℚ, a ≤ b →
          (a - listMin v) / (listMax v - listMin v) ≤
            (b - listMin v) / (listMax v - listMin v) :=
        fun a b hab =>
          (div_le_div_iff_of_pos_right hspos).mpr (sub_le_sub_right hab _)
      have hmem0 : (0 : ℚ) ∈
          v.map (fun x => (x - listMin v) / (listMax v - listMin v)) := by
        have hmm := List.mem_map_of_mem
          (fun x => (x - listMin v) / (listMax v - listMin v)) (listMin_mem hne)
        simpa [sub_self] using hmm
      have hmem1 : (1 : ℚ) ∈
          v.map (fun x => (x - listMin v) / (listMax v - listMin v)) := by
        have hmm := List.mem_map_of_mem
          (fun x => (x - listMin v) / (listMax v - listMin v)) (listMax_mem hne)
        simpa [div_self (ne_of_gt hspos)] using hmm
      have hminw :
          listMin (v.map fun x => (x - listMin v) / (listMax v - listMin v))
            = 0 := by
        apply listMin_eq_of hmem0
        intro y hy
        obtain ⟨x, hx, rfl⟩ := List.mem_map.mp hy
        have hle := hmono (listMin v) x (listMin_le hx)
        simpa [sub_self] using hle
      have hmaxw :
          listMax (v.map fun x => (x - listMin v) / (listMax v - listMin v))
            = 1 := by
        apply listMax_eq_of hmem1
        intro y hy
        obtain ⟨x, hx, rfl⟩ := List.mem_map.mp hy
        have hle := hmono x (listMax v) (le_listMax hx)
        simpa [div_self (ne_of_gt hspos)] using hle
      rw [heq, normalise_of_ne hwne (by rw [hminw, hmaxw]; norm_num),
        hminw, hmaxw]
      simp

end CodeViewerSample
